import Mathlib

/-!
Verification of the representation-theoretic core of the `irrep_ssg` band
classification routine: little-group construction at a k-point, the
co-representation (Wigner/Dimmock) table, the band character of a degenerate
Bloch block, and its decomposition into irreducible co-representations.

The repository ships only the C interface headers (`comms.h`, `irrep_ssg.h`);
the bodies of `kgroup`, `get_ch_from_op`,
`find_relation_between_unitary_irrep_coirrep`, `pw_setup_ssg` and `irrep_ssg`
are not in the source tree.  Each operation is therefore modelled from the
specification, with complex numbers embedded as pairs of rationals (`CQ`) so
that every definition is executable, and tolerance comparisons |z| ≤ ε
rendered as normSq z ≤ ε² (exactly equivalent for ε ≥ 0).
-/

/-- Error kinds surfaced by the core (spec §7). -/
inductive IrrepError where
  | inputShape
  | invariantViolation
  | incompletePlaneWaveBasis
  | degeneracyAmbiguity
  | numericalUnsoundness
  | decompositionInconsistent
deriving DecidableEq, Repr

/-- Complex numbers with rational real and imaginary parts: the executable
embedding of the `double complex` values of the interface. -/
structure CQ where
  re : ℚ
  im : ℚ
deriving DecidableEq, Repr

namespace CQ

theorem ext_iff {z w : CQ} : z = w ↔ z.re = w.re ∧ z.im = w.im := by
  constructor
  · intro h; simp [h]
  · intro h; cases z; cases w; simp_all

@[ext] theorem ext {z w : CQ} (hre : z.re = w.re) (him : z.im = w.im) : z = w :=
  ext_iff.mpr ⟨hre, him⟩

instance : Zero CQ := ⟨⟨0, 0⟩⟩
instance : One CQ := ⟨⟨1, 0⟩⟩
instance : Add CQ := ⟨fun z w => ⟨z.re + w.re, z.im + w.im⟩⟩
instance : Neg CQ := ⟨fun z => ⟨-z.re, -z.im⟩⟩
instance : Sub CQ := ⟨fun z w => ⟨z.re - w.re, z.im - w.im⟩⟩
instance : Mul CQ := ⟨fun z w => ⟨z.re * w.re - z.im * w.im, z.re * w.im + z.im * w.re⟩⟩

@[simp] theorem zero_re : (0 : CQ).re = 0 := rfl
@[simp] theorem zero_im : (0 : CQ).im = 0 := rfl
@[simp] theorem one_re : (1 : CQ).re = 1 := rfl
@[simp] theorem one_im : (1 : CQ).im = 0 := rfl
@[simp] theorem add_re (z w : CQ) : (z + w).re = z.re + w.re := rfl
@[simp] theorem add_im (z w : CQ) : (z + w).im = z.im + w.im := rfl
@[simp] theorem neg_re (z : CQ) : (-z).re = -z.re := rfl
@[simp] theorem neg_im (z : CQ) : (-z).im = -z.im := rfl
@[simp] theorem sub_re (z w : CQ) : (z - w).re = z.re - w.re := rfl
@[simp] theorem sub_im (z w : CQ) : (z - w).im = z.im - w.im := rfl
@[simp] theorem mul_re (z w : CQ) : (z * w).re = z.re * w.re - z.im * w.im := rfl
@[simp] theorem mul_im (z w : CQ) : (z * w).im = z.re * w.im + z.im * w.re := rfl

instance : NatCast CQ := ⟨fun n => ⟨n, 0⟩⟩
instance : IntCast CQ := ⟨fun n => ⟨n, 0⟩⟩

@[simp] theorem natCast_re (n : ℕ) : ((n : CQ)).re = n := rfl
@[simp] theorem natCast_im (n : ℕ) : ((n : CQ)).im = 0 := rfl
@[simp] theorem intCast_re (n : ℤ) : ((n : CQ)).re = n := rfl
@[simp] theorem intCast_im (n : ℤ) : ((n : CQ)).im = 0 := rfl

instance : CommRing CQ where
  add_assoc a b c := by ext <;> simp <;> ring
  zero_add a := by ext <;> simp
  add_zero a := by ext <;> simp
  add_comm a b := by ext <;> simp <;> ring
  left_distrib a b c := by ext <;> simp <;> ring
  right_distrib a b c := by ext <;> simp <;> ring
  zero_mul a := by ext <;> simp
  mul_zero a := by ext <;> simp
  mul_assoc a b c := by ext <;> simp <;> ring
  one_mul a := by ext <;> simp
  mul_one a := by ext <;> simp
  mul_comm a b := by ext <;> simp <;> ring
  neg_add_cancel a := by ext <;> simp
  sub_eq_add_neg a b := by ext <;> simp <;> ring
  nsmul := fun n z => ⟨n * z.re, n * z.im⟩
  nsmul_zero a := by ext <;> simp
  nsmul_succ n a := by ext <;> simp <;> ring
  zsmul := fun n z => ⟨n * z.re, n * z.im⟩
  zsmul_zero' a := by ext <;> simp
  zsmul_succ' n a := by ext <;> push_cast <;> simp <;> ring
  zsmul_neg' n a := by ext <;> push_cast <;> simp <;> ring
  natCast := Nat.cast
  natCast_zero := by ext <;> simp
  natCast_succ n := by ext <;> simp
  intCast := Int.cast
  intCast_ofNat n := by ext <;> simp
  intCast_negSucc n := by ext <;> simp <;> push_cast <;> ring

instance : StarRing CQ where
  star z := ⟨z.re, -z.im⟩
  star_involutive z := by ext <;> simp
  star_mul z w := by ext <;> simp <;> ring
  star_add z w := by ext <;> simp <;> ring

@[simp] theorem star_re (z : CQ) : (star z).re = z.re := rfl
@[simp] theorem star_im (z : CQ) : (star z).im = -z.im := rfl

/-- Squared modulus |z|², rational-valued.  A tolerance test |z| ≤ ε of the
spec is embedded as normSq z ≤ ε². -/
def normSq (z : CQ) : ℚ := z.re * z.re + z.im * z.im

/-- Division of a complex value by a natural count (used for the 1/|L|
prefactors). -/
def divNat (z : CQ) (n : ℕ) : CQ := ⟨z.re / n, z.im / n⟩

@[simp] theorem divNat_one (z : CQ) : divNat z 1 = z := by
  ext <;> simp [divNat]

theorem normSq_nonneg (z : CQ) : 0 ≤ normSq z := by
  have h1 : 0 ≤ z.re * z.re := mul_self_nonneg _
  have h2 : 0 ≤ z.im * z.im := mul_self_nonneg _
  simpa [normSq] using add_nonneg h1 h2

end CQ

/-- Symmetry operator g = (R, τ, S_SU2, S_SO3, a) (spec §3): integer rotation
matrix in the lattice basis, fractional translation, SU(2) spin rotation,
SO(3) spin-space rotation, antiunitary flag.  The C interface passes these as
the parallel arrays rot_input, tau_input, SU2_input, spin_rot_input,
time_reversal_input. -/
structure SymOp where
  rot : Fin 3 → Fin 3 → ℤ
  tau : Fin 3 → ℚ
  su2 : Fin 2 → Fin 2 → CQ
  so3 : Fin 3 → Fin 3 → ℚ
  timeReversal : Bool

/-- Component c of k' = R^T·k·(−1)^a (spec §4.1). -/
def kImage (g : SymOp) (k : Fin 3 → ℚ) (c : Fin 3) : ℚ :=
  (if g.timeReversal then -1 else 1) * ∑ r : Fin 3, (g.rot r c : ℚ) * k r

/-- The reciprocal-lattice offset Δk(g) recorded by the solver: the nearest
integer vector to k' − k. -/
def deltaK (g : SymOp) (k : Fin 3 → ℚ) (c : Fin 3) : ℤ :=
  round (kImage g k c - k c)

/-- Modelled from the spec: the acceptance test of `kgroup` (declared in
comms.h, body absent from the tree) — accept g when each component of
k' − k is within ε_k of an integer (spec §4.1). -/
def kAccept (epsK : ℚ) (g : SymOp) (k : Fin 3 → ℚ) : Bool :=
  decide (∀ c : Fin 3, |kImage g k c - k c - (deltaK g k c : ℚ)| ≤ epsK)

/-- Modelled from the spec: the little-group filter of `kgroup` — operators
of the full group that fix k (mod lattice), emitted stably sorted by
original group index (spec §4.1). -/
def littleGroupIndices (epsK : ℚ) (N : ℕ) (G : ℕ → SymOp) (k : Fin 3 → ℚ) :
    List ℕ :=
  (List.range N).filter (fun i => kAccept epsK (G i) k)

/-- Modelled from the spec: `kgroup` (declared in comms.h, body absent from
the tree) — returns the little-group indices, or InvariantViolation when the
identity (index 0) is not accepted (spec §4.1 failure clause). -/
def kgroup (epsK : ℚ) (N : ℕ) (G : ℕ → SymOp) (k : Fin 3 → ℚ) :
    Except IrrepError (List ℕ) :=
  let L := littleGroupIndices epsK N G k
  if 0 ∈ L then .ok L else .error .invariantViolation

/-- A real number is within ε of some integer iff it is within ε of its
nearest integer. -/
theorem exists_int_close_iff (x ε : ℚ) :
    (∃ z : ℤ, |x - z| ≤ ε) ↔ |x - round x| ≤ ε := by
  constructor
  · rintro ⟨z, hz⟩
    exact le_trans (round_le x z) hz
  · intro h
    exact ⟨round x, h⟩

/-- The identity operator E = (1, 0, 1, 1, unitary). -/
def idOp : SymOp where
  rot := fun r c => if r = c then 1 else 0
  tau := fun _ => 0
  su2 := fun s t => if s = t then 1 else 0
  so3 := fun r c => if r = c then 1 else 0
  timeReversal := false

/-- C2: the little-group solver accepts g iff every component of
R^T·k·(−1)^a − k is within ε_k of an integer; the recorded Δk(g) is such an
integer vector; and an antiunitary operator is accepted only when it maps k
to −k modulo a reciprocal-lattice vector. -/
theorem littleGroup_accept_iff (epsK : ℚ) (N : ℕ) (G : ℕ → SymOp)
    (k : Fin 3 → ℚ) (i : ℕ) :
    (i ∈ littleGroupIndices epsK N G k ↔
      i < N ∧ ∀ c : Fin 3, ∃ z : ℤ, |kImage (G i) k c - k c - (z : ℚ)| ≤ epsK)
    ∧ (i ∈ littleGroupIndices epsK N G k →
        ∀ c : Fin 3, |kImage (G i) k c - k c - (deltaK (G i) k c : ℚ)| ≤ epsK)
    ∧ ((G i).timeReversal = true → i ∈ littleGroupIndices epsK N G k →
        ∀ c : Fin 3, ∃ z : ℤ,
          |(∑ r : Fin 3, ((G i).rot r c : ℚ) * k r) + k c - (z : ℚ)| ≤ epsK) := by
  have hmem : i ∈ littleGroupIndices epsK N G k ↔
      (i < N ∧
        ∀ c : Fin 3, |kImage (G i) k c - k c - (deltaK (G i) k c : ℚ)| ≤ epsK) := by
    simp [littleGroupIndices, List.mem_filter, List.mem_range, kAccept]
  refine ⟨?_, ?_, ?_⟩
  · rw [hmem]
    refine and_congr_right fun _ => forall_congr' fun c => ?_
    simp only [deltaK]
    exact (exists_int_close_iff _ _).symm
  · intro hi c
    exact (hmem.mp hi).2 c
  · intro ha hi c
    refine ⟨-(deltaK (G i) k c), ?_⟩
    have h := (hmem.mp hi).2 c
    have h2 : (∑ r : Fin 3, ((G i).rot r c : ℚ) * k r) + k c - ((-(deltaK (G i) k c) : ℤ) : ℚ)
        = -(kImage (G i) k c - k c - (deltaK (G i) k c : ℚ)) := by
      simp [kImage, ha]
      ring
    rw [h2, abs_neg]
    exact h

/-- Witness for C2 at the identity operator and k = 0. -/
theorem littleGroup_accept_iff_witness :
    0 ∈ littleGroupIndices 1 1 (fun _ => idOp) (fun _ => 0) :=
  (littleGroup_accept_iff 1 1 (fun _ => idOp) (fun _ => 0) 0).1.mpr
    ⟨Nat.zero_lt_one, fun c => ⟨0, by simp [kImage, idOp]⟩⟩

/-- C3: if the identity (index 0) is not accepted, `kgroup` signals
InvariantViolation; whenever a little group is returned, the identity is a
member and stands at position 0 of the stably index-sorted output. -/
theorem kgroup_identity (epsK : ℚ) (N : ℕ) (G : ℕ → SymOp) (k : Fin 3 → ℚ) :
    (0 ∉ littleGroupIndices epsK N G k →
      kgroup epsK N G k = .error .invariantViolation)
    ∧ (∀ L, kgroup epsK N G k = .ok L → 0 ∈ L ∧ L.head? = some 0) := by
  constructor
  · intro h
    simp [kgroup, h]
  · intro L hL
    unfold kgroup at hL
    by_cases h0 : 0 ∈ littleGroupIndices epsK N G k
    · rw [if_pos h0] at hL
      simp only [Except.ok.injEq] at hL
      subst hL
      refine ⟨h0, ?_⟩
      have hN : 0 < N := List.mem_range.mp (List.mem_filter.mp h0).1
      have hp : kAccept epsK (G 0) k = true := by
        simpa using (List.mem_filter.mp h0).2
      obtain ⟨n, rfl⟩ := Nat.exists_eq_succ_of_ne_zero hN.ne'
      simp [littleGroupIndices, List.range_succ_eq_map, List.filter_cons, hp]
    · rw [if_neg h0] at hL
      cases hL

/-- R·g_i: integer rotation applied to an integer G-vector. -/
def rotVec (R : Fin 3 → Fin 3 → ℤ) (v : Fin 3 → ℤ) (r : Fin 3) : ℤ :=
  ∑ c : Fin 3, R r c * v c

/-- Index of the first occurrence of t in a list of G-vectors, if present. -/
def findIdxOf (t : Fin 3 → ℤ) : List (Fin 3 → ℤ) → Option ℕ
  | [] => none
  | v :: rest => if v = t then some 0 else (findIdxOf t rest).map (· + 1)

theorem findIdxOf_eq_none_iff (t : Fin 3 → ℤ) (l : List (Fin 3 → ℤ)) :
    findIdxOf t l = none ↔ t ∉ l := by
  induction l with
  | nil => simp [findIdxOf]
  | cons v rest ih =>
    by_cases hv : v = t
    · simp [findIdxOf, hv]
    · have hv' : ¬t = v := fun h => hv h.symm
      simp [findIdxOf, hv, hv', ih, Option.map_eq_none', not_or]

theorem findIdxOf_eq_some (t : Fin 3 → ℤ) (l : List (Fin 3 → ℤ)) (j : ℕ)
    (h : findIdxOf t l = some j) :
    ∃ hj : j < l.length, l.get ⟨j, hj⟩ = t := by
  induction l generalizing j with
  | nil => simp [findIdxOf] at h
  | cons v rest ih =>
    by_cases hv : v = t
    · simp [findIdxOf, hv] at h
      subst h
      exact ⟨Nat.succ_pos _, hv⟩
    · simp [findIdxOf, hv] at h
      obtain ⟨j', hj', rfl⟩ := h
      obtain ⟨hlt, hget⟩ := ih j' hj'
      exact ⟨Nat.succ_lt_succ hlt, hget⟩

/-- Modelled from the spec: the per-operator G-vector permutation table
(`tilte_vec` / `rot_vec_pw`) precomputed by `pw_setup_ssg` (declared in
comms.h, body absent from the tree): for each kept G-vector g_i, find the
index j with g_j = R·g_i; if some R·g_i is absent from the kept basis,
signal IncompletePlaneWaveBasis (spec §4.3). -/
def permTableAux (R : Fin 3 → Fin 3 → ℤ) (basis : List (Fin 3 → ℤ)) :
    List (Fin 3 → ℤ) → Except IrrepError (List ℕ)
  | [] => .ok []
  | v :: rest =>
    match findIdxOf (rotVec R v) basis with
    | none => .error .incompletePlaneWaveBasis
    | some j =>
      match permTableAux R basis rest with
      | .error e => .error e
      | .ok p => .ok (j :: p)

/-- The permutation table of one little-group operator over the whole kept
plane-wave basis. -/
def permTable (R : Fin 3 → Fin 3 → ℤ) (basis : List (Fin 3 → ℤ)) :
    Except IrrepError (List ℕ) :=
  permTableAux R basis basis

theorem permTableAux_error_eq (R : Fin 3 → Fin 3 → ℤ)
    (basis : List (Fin 3 → ℤ)) :
    ∀ l e, permTableAux R basis l = .error e → e = .incompletePlaneWaveBasis := by
  intro l
  induction l with
  | nil =>
    intro e h
    simp [permTableAux] at h
  | cons v rest ih =>
    intro e h
    rcases hf : findIdxOf (rotVec R v) basis with _ | j
    · simp [permTableAux, hf] at h
      first
        | exact h.symm
        | exact h
    · rcases hrest : permTableAux R basis rest with e' | p
      · simp [permTableAux, hf, hrest] at h
        first
          | exact h ▸ ih e' hrest
          | exact h.symm ▸ ih e' hrest
      · simp [permTableAux, hf, hrest] at h

theorem permTableAux_error_iff (R : Fin 3 → Fin 3 → ℤ)
    (basis : List (Fin 3 → ℤ)) (l : List (Fin 3 → ℤ)) :
    permTableAux R basis l = .error .incompletePlaneWaveBasis ↔
      ∃ v ∈ l, rotVec R v ∉ basis := by
  induction l with
  | nil => simp [permTableAux]
  | cons v rest ih =>
    rcases hf : findIdxOf (rotVec R v) basis with _ | j
    · have hv : rotVec R v ∉ basis := (findIdxOf_eq_none_iff _ _).mp hf
      exact iff_of_true (by simp [permTableAux, hf])
        ⟨v, List.mem_cons_self v rest, hv⟩
    · have hmem : rotVec R v ∈ basis := by
        obtain ⟨hj, hget⟩ := findIdxOf_eq_some _ _ _ hf
        exact hget ▸ List.get_mem basis _ _
      rcases hrest : permTableAux R basis rest with e | p
      · have he := permTableAux_error_eq R basis rest e hrest
        subst he
        refine iff_of_true (by simp [permTableAux, hf, hrest]) ?_
        obtain ⟨w, hw, hnot⟩ := ih.mp hrest
        exact ⟨w, List.mem_cons_of_mem v hw, hnot⟩
      · refine iff_of_false (by simp [permTableAux, hf, hrest]) ?_
        rintro ⟨w, hw, hnot⟩
        rcases List.mem_cons.mp hw with hw | hw
        · exact hnot (hw.symm ▸ hmem)
        · have := ih.mpr ⟨w, hw, hnot⟩
          rw [this] at hrest
          cases hrest

theorem permTableAux_ok (R : Fin 3 → Fin 3 → ℤ) (basis : List (Fin 3 → ℤ)) :
    ∀ l p, permTableAux R basis l = .ok p →
      p.length = l.length ∧
      ∀ i (hi : i < l.length) (hi' : i < p.length),
        ∃ hj : p.get ⟨i, hi'⟩ < basis.length,
          basis.get ⟨p.get ⟨i, hi'⟩, hj⟩ = rotVec R (l.get ⟨i, hi⟩) := by
  intro l
  induction l with
  | nil =>
    intro p hp
    simp [permTableAux] at hp
    subst hp
    simp
  | cons v rest ih =>
    intro p hp
    rcases hf : findIdxOf (rotVec R v) basis with _ | j
    · simp [permTableAux, hf] at hp
    · rcases hrest : permTableAux R basis rest with e | q
      · simp [permTableAux, hf, hrest] at hp
      · simp [permTableAux, hf, hrest] at hp
        subst hp
        obtain ⟨hlen, hq⟩ := ih q hrest
        refine ⟨by simp [hlen], ?_⟩
        intro i hi hi'
        match i with
        | 0 =>
          obtain ⟨hj, hget⟩ := findIdxOf_eq_some _ _ _ hf
          exact ⟨hj, hget⟩
        | Nat.succ i' =>
          have hi2 : i' < rest.length := Nat.lt_of_succ_lt_succ hi
          have hi2' : i' < q.length := Nat.lt_of_succ_lt_succ hi'
          exact hq i' hi2 hi2'

/-- C7: for a little-group operator with rotation R over the kept plane-wave
basis, the table builder signals IncompletePlaneWaveBasis iff some R·g_i is
absent from the basis; otherwise the computed table maps each index i to the
index j with g_j = R·g_i. -/
theorem permTable_spec (R : Fin 3 → Fin 3 → ℤ) (basis : List (Fin 3 → ℤ)) :
    (permTable R basis = .error .incompletePlaneWaveBasis ↔
      ∃ v ∈ basis, rotVec R v ∉ basis)
    ∧ (∀ p, permTable R basis = .ok p →
        p.length = basis.length ∧
        ∀ i (hi : i < basis.length) (hi' : i < p.length),
          ∃ hj : p.get ⟨i, hi'⟩ < basis.length,
            basis.get ⟨p.get ⟨i, hi'⟩, hj⟩ = rotVec R (basis.get ⟨i, hi⟩)) :=
  ⟨permTableAux_error_iff R basis basis, fun p hp => permTableAux_ok R basis basis p hp⟩

/-- Witness for C7: identity rotation over the one-vector basis {0} yields
the identity permutation [0]. -/
theorem permTable_spec_witness :
    ([0] : List ℕ).length = ([fun _ => 0] : List (Fin 3 → ℤ)).length :=
  ((permTable_spec idOp.rot [fun _ => 0]).2 [0]
    (by
      have h : rotVec idOp.rot (fun _ => 0) = (fun _ => 0) := by
        funext r
        simp [rotVec, idOp]
      simp [permTable, permTableAux, findIdxOf, h])).1

/-- A row of the co-representation table T_co: characters indexed by
little-group operator index, together with the Herring/Dimmock discriminant
(+1, −1 or 0 for cases (a), (b), (c)). -/
structure CoRow where
  chars : ℕ → CQ
  disc : ℤ

/-- Characters of the antiunitary-conjugate representation,
χ_D'(g) = χ_D(a₀⁻¹·g·a₀)*; the conjugation map g ↦ a₀⁻¹·g·a₀ is supplied by
the group multiplication table. -/
def chiConj (conj : ℕ → ℕ) (chi : ℕ → CQ) : ℕ → CQ :=
  fun g => star (chi (conj g))

/-- Inequality of the class functions χ_D and χ_D' to tolerance: some
unitary element where they differ beyond ε. -/
def charsDiffer (eps : ℚ) (Lu : List ℕ) (chi chi' : ℕ → CQ) : Bool :=
  Lu.any (fun g => decide (eps ^ 2 < CQ.normSq (chi' g - chi g)))

/-- Frobenius–Schur–Dimmock indicator
η = (1/|L_u|)·Σ_{g∈L_a} ω(g,g)·χ_D(g²), with the squaring map g ↦ g² and the
factor system ω supplied by the multiplication table. -/
def fsIndicator (Lu La : List ℕ) (omg : ℕ → CQ) (sq : ℕ → ℕ)
    (chi : ℕ → CQ) : CQ :=
  CQ.divNat (La.map (fun g => omg g * chi (sq g))).sum Lu.length

/-- Modelled from the spec: phase-B production of one co-representation row
from a unitary irrep row (the work split between `get_ch_from_op` and
`find_relation_between_unitary_irrep_coirrep`, declared in comms.h, bodies
absent from the tree).  Case (c) when the conjugate characters differ:
merged row D ⊕ D', discriminant 0, characters χ_D + χ_D' on L_u and 0 on
L_a.  Otherwise the indicator selects case (a) (discriminant +1, antiunitary
characters from Dimmock's formula, whose closed form the spec leaves open —
supplied here as the function dmk) or case (b) (doubled row, discriminant
−1); an indicator away from ±1 signals NumericalUnsoundness (spec §4.2). -/
def coRowOfIrrep (eps : ℚ) (Lu La : List ℕ) (conj sq : ℕ → ℕ)
    (omg dmk : ℕ → CQ) (chi : ℕ → CQ) : Except IrrepError CoRow :=
  let chi' := chiConj conj chi
  if charsDiffer eps Lu chi chi' then
    .ok ⟨fun g => if g ∈ Lu then chi g + chi' g else 0, 0⟩
  else
    let eta := fsIndicator Lu La omg sq chi
    if CQ.normSq (eta - 1) ≤ eps ^ 2 then
      .ok ⟨fun g => if g ∈ Lu then chi g else dmk g, 1⟩
    else if CQ.normSq (eta + 1) ≤ eps ^ 2 then
      .ok ⟨fun g => if g ∈ Lu then 2 * chi g else 0, -1⟩
    else
      .error .numericalUnsoundness

/-- Modelled from the spec: phase B of the character-table builder.  With no
antiunitary elements, T_co := T_u and all discriminants are +1; otherwise
every unitary irrep row goes through the three Wigner/Dimmock cases
(spec §4.2 phase B). -/
def buildCoTable (eps : ℚ) (Lu La : List ℕ) (conj sq : ℕ → ℕ)
    (omg dmk : ℕ → CQ) (Tu : List (ℕ → CQ)) : Except IrrepError (List CoRow) :=
  match La with
  | [] => .ok (Tu.map (fun chi => ⟨fun g => if g ∈ Lu then chi g else 0, 1⟩))
  | _ :: _ => Tu.mapM (coRowOfIrrep eps Lu La conj sq omg dmk)

/-- C4: for a little group with no antiunitary elements, the builder returns
the unitary character table itself — row for row, the characters agree on
every unitary element — and every per-row discriminant is +1. -/
theorem buildCoTable_no_antiunitary (eps : ℚ) (Lu : List ℕ) (conj sq : ℕ → ℕ)
    (omg dmk : ℕ → CQ) (Tu : List (ℕ → CQ)) :
    ∃ rows, buildCoTable eps Lu [] conj sq omg dmk Tu = .ok rows ∧
      List.Forall₂ (fun (r : CoRow) (chi : ℕ → CQ) =>
        r.disc = 1 ∧ ∀ g ∈ Lu, r.chars g = chi g) rows Tu := by
  refine ⟨_, rfl, ?_⟩
  induction Tu with
  | nil => simp [buildCoTable]
  | cons chi rest ih =>
    refine List.Forall₂.cons ⟨rfl, fun g hg => ?_⟩ ih
    simp [hg]

/-- Witness for C4: the trivial one-row table over L_u = {0}. -/
theorem buildCoTable_no_antiunitary_witness :
    ∃ r : CoRow, r.disc = 1 ∧ r.chars 0 = 1 := by
  obtain ⟨rows, _, h2⟩ := buildCoTable_no_antiunitary 1 [0] id id
    (fun _ => 1) (fun _ => 0) [fun _ => (1 : CQ)]
  rcases h2 with _ | ⟨⟨hd, hc⟩, _⟩
  exact ⟨_, hd, hc 0 (by simp)⟩

/-- C5: when the antiunitary-conjugate characters differ from χ_D beyond
ε_char on some unitary element, the builder produces the merged case-(c)
row: discriminant 0, characters χ_D(g) + χ_D'(g) on every unitary element
and 0 on every antiunitary element. -/
theorem coRowOfIrrep_case_c (eps : ℚ) (Lu La : List ℕ) (conj sq : ℕ → ℕ)
    (omg dmk : ℕ → CQ) (chi : ℕ → CQ)
    (hdiff : charsDiffer eps Lu chi (chiConj conj chi) = true)
    (hdisj : ∀ g ∈ La, g ∉ Lu) :
    ∃ r, coRowOfIrrep eps Lu La conj sq omg dmk chi = .ok r ∧
      r.disc = 0 ∧
      (∀ g ∈ Lu, r.chars g = chi g + chiConj conj chi g) ∧
      (∀ g ∈ La, r.chars g = 0) := by
  have h : coRowOfIrrep eps Lu La conj sq omg dmk chi =
      .ok ⟨fun g => if g ∈ Lu then chi g + chiConj conj chi g else 0, 0⟩ := by
    simp [coRowOfIrrep, hdiff]
  refine ⟨_, h, rfl, ?_, ?_⟩
  · intro g hg
    simp [hg]
  · intro g hg
    simp [hdisj g hg]

/-- Witness for C5: a one-dimensional irrep with character i on L_u = {0},
whose conjugate −i differs beyond ε = 1. -/
theorem coRowOfIrrep_case_c_witness :
    ∃ r, coRowOfIrrep 1 [0] [1] id id (fun _ => 1) (fun _ => 0)
        (fun _ => ⟨0, 1⟩) = .ok r ∧
      r.disc = 0 ∧
      (∀ g ∈ ([0] : List ℕ),
        r.chars g = (⟨0, 1⟩ : CQ) + chiConj id (fun _ => ⟨0, 1⟩) g) ∧
      (∀ g ∈ ([1] : List ℕ), r.chars g = 0) :=
  coRowOfIrrep_case_c 1 [0] [1] id id (fun _ => 1) (fun _ => 0)
    (fun _ => ⟨0, 1⟩) (by norm_num [charsDiffer, chiConj, CQ.normSq]) (by decide)

/-- ε_mul = 0.05, the multiplicity rounding tolerance (spec §6). -/
def epsMul : ℚ := 1 / 20

/-- Raw multiplicity μ_α = (1/|L|)·Σ_{g∈L} χ_co,α(g)*·χ_band(g) of one
co-irrep row in the band block (spec §4.4). -/
def muRaw (L : List ℕ) (chiRow chiBand : ℕ → CQ) : CQ :=
  CQ.divNat (L.map (fun g => star (chiRow g) * chiBand g)).sum L.length

/-- Nearest non-negative integer to a rational. -/
def roundNN (x : ℚ) : ℕ := (max 0 (round x)).toNat

/-- The rounded multiplicity of one co-irrep row. -/
def muOf (L : List ℕ) (chiBand : ℕ → CQ) (row : ℕ → CQ) : ℕ :=
  roundNN (muRaw L row chiBand).re

/-- Modelled from the spec: the IrrepDecomposer step of `irrep_ssg` (declared
in irrep_ssg.h, body absent from the tree).  Rows pair the co-irrep
characters with the co-irrep dimension.  Multiplicities are character inner
products rounded to the nearest non-negative integer; the result is rejected
with DecompositionInconsistent when some rounding residual exceeds
ε_mul = 0.05 or the dimensions do not sum to the block size m (spec §4.4). -/
def decompose (L : List ℕ) (rows : List ((ℕ → CQ) × ℕ)) (chiBand : ℕ → CQ)
    (m : ℕ) : Except IrrepError (List ℕ) :=
  if rows.all (fun r =>
        decide (CQ.normSq (muRaw L r.1 chiBand - (muOf L chiBand r.1 : CQ)) ≤
          epsMul ^ 2)) &&
      decide ((rows.map (fun r => muOf L chiBand r.1 * r.2)).sum = m) then
    .ok (rows.map (fun r => muOf L chiBand r.1))
  else
    .error .decompositionInconsistent

/-- C6: the decomposer signals DecompositionInconsistent iff some
multiplicity is farther than ε_mul = 0.05 from its nearest non-negative
integer (|μ−round μ| > ε embedded as normSq > ε²) or the rounded
multiplicities weighted by dimension do not sum to m; on success it returns
exactly the rounded non-negative multiplicities. -/
theorem decompose_spec (L : List ℕ) (rows : List ((ℕ → CQ) × ℕ))
    (chiBand : ℕ → CQ) (m : ℕ) :
    (decompose L rows chiBand m = .error .decompositionInconsistent ↔
      (∃ r ∈ rows,
        epsMul ^ 2 <
          CQ.normSq (muRaw L r.1 chiBand - (muOf L chiBand r.1 : CQ)))
      ∨ (rows.map (fun r => muOf L chiBand r.1 * r.2)).sum ≠ m)
    ∧ (∀ v, decompose L rows chiBand m = .ok v →
        v = rows.map (fun r => muOf L chiBand r.1)) := by
  have hball : (rows.all (fun r =>
        decide (CQ.normSq (muRaw L r.1 chiBand - (muOf L chiBand r.1 : CQ)) ≤
          epsMul ^ 2)) &&
      decide ((rows.map (fun r => muOf L chiBand r.1 * r.2)).sum = m)) = true ↔
      ((∀ r ∈ rows,
          CQ.normSq (muRaw L r.1 chiBand - (muOf L chiBand r.1 : CQ)) ≤
            epsMul ^ 2) ∧
        (rows.map (fun r => muOf L chiBand r.1 * r.2)).sum = m) := by
    simp [List.all_eq_true]
  by_cases hcond : (∀ r ∈ rows,
      CQ.normSq (muRaw L r.1 chiBand - (muOf L chiBand r.1 : CQ)) ≤
        epsMul ^ 2) ∧
      (rows.map (fun r => muOf L chiBand r.1 * r.2)).sum = m
  · have hok : decompose L rows chiBand m =
        .ok (rows.map (fun r => muOf L chiBand r.1)) := by
      unfold decompose
      rw [if_pos (hball.mpr hcond)]
    constructor
    · refine iff_of_false (by simp [hok]) ?_
      rintro (⟨r, hr, hgt⟩ | hne)
      · exact absurd (hcond.1 r hr) (not_le.mpr hgt)
      · exact hne hcond.2
    · intro v hv
      rw [hok] at hv
      simp only [Except.ok.injEq] at hv
      exact hv.symm
  · have herr : decompose L rows chiBand m = .error .decompositionInconsistent := by
      unfold decompose
      rw [if_neg]
      intro htrue
      exact hcond (hball.mp htrue)
    constructor
    · refine iff_of_true herr ?_
      rcases not_and_or.mp hcond with h | h
      · left
        push_neg at h
        obtain ⟨r, hr, hgt⟩ := h
        exact ⟨r, hr, hgt⟩
      · right
        exact h
    · intro v hv
      rw [herr] at hv
      cases hv

/-- Witness for C6: the trivial group with a normalized one-band block. -/
theorem decompose_spec_witness :
    ([1] : List ℕ) =
      [((fun _ => (1 : CQ)), 1)].map (fun r => muOf [0] (fun _ => 1) r.1) := by
  have h1 : muRaw [0] (fun _ => (1 : CQ)) (fun _ => 1) = 1 := by
    simp [muRaw, CQ.divNat, CQ.ext_iff]
  have h2 : muOf [0] (fun _ => (1 : CQ)) (fun _ => (1 : CQ)) = 1 := by
    simp [muOf, h1, roundNN]
  have h3 : decompose [0] [((fun _ => (1 : CQ)), 1)] (fun _ => 1) 1 = .ok [1] := by
    norm_num [decompose, h1, h2, epsMul, CQ.normSq]
  exact (decompose_spec [0] [((fun _ => (1 : CQ)), 1)] (fun _ => 1) 1).2 [1] h3

/-- One term of the decomposition label; a multiplicity of 1 omits the
coefficient (spec §4.4 formatting). -/
def formatTerm (mu : ℕ) (name : String) : String :=
  if mu = 1 then name else s!"{mu}·{name}"

/-- Joining of decomposition terms with the direct-sum sign. -/
def joinTerms : List String → String
  | [] => ""
  | [t] => t
  | t :: rest => t ++ " ⊕ " ++ joinTerms rest

/-- Modelled from the spec: assembly of the decomposition label of
`irrep_ssg` — non-zero terms in irrep-index order joined by "⊕"
(spec §4.4). -/
def formatDecomp (names : List String) (mus : List ℕ) : String :=
  joinTerms (((mus.zip names).filter (fun p => p.1 != 0)).map
    (fun p => formatTerm p.1 p.2))

/-- C9: for the trivial little group {E} and an m-fold degenerate block
(band character m at the identity), the decomposer returns multiplicity m
for the single trivial irrep Γ₁ and the label is "m·Γ₁", the coefficient
omitted when m = 1. -/
theorem trivial_group_decomposition (m : ℕ) (chiBand : ℕ → CQ)
    (hm : 0 < m) (hband : chiBand 0 = (m : CQ)) :
    decompose [0] [((fun _ => (1 : CQ)), 1)] chiBand m = .ok [m] ∧
      formatDecomp ["Γ₁"] [m] = (if m = 1 then "Γ₁" else s!"{m}·Γ₁") := by
  have h1 : muRaw [0] (fun _ => (1 : CQ)) chiBand = (m : CQ) := by
    simp [muRaw, CQ.divNat, hband, CQ.ext_iff]
  have h2 : muOf [0] chiBand (fun _ => (1 : CQ)) = m := by
    simp [muOf, h1, roundNN]
  constructor
  · norm_num [decompose, h1, h2, epsMul, CQ.normSq]
  · have hfilter : formatDecomp ["Γ₁"] [m] = formatTerm m "Γ₁" := by
      simp [formatDecomp, hm.ne', joinTerms]
    rw [hfilter]
    by_cases hm1 : m = 1
    · simp [formatTerm, hm1]
    · simp only [formatTerm, if_neg hm1, String.append_assoc]
      show "" ++ (toString m ++ ("·" ++ ("Γ₁" ++ ""))) = "" ++ (toString m ++ "·Γ₁")
      simp

/-- Witness for C9 at m = 3. -/
theorem trivial_group_decomposition_witness :
    decompose [0] [((fun _ => (1 : CQ)), 1)] (fun _ => (3 : CQ)) 3 = .ok [3] ∧
      formatDecomp ["Γ₁"] [3] = (if (3 : ℕ) = 1 then "Γ₁" else s!"{(3 : ℕ)}·Γ₁") :=
  trivial_group_decomposition 3 (fun _ => (3 : CQ)) (by decide) (by simp)

/-- The spinor column (c_a[n,i], c_b[n,i])ᵀ of basis state n at G-vector
index i. -/
def spinor {K : Type} (ca cb : ℕ → ℕ → K) (n i : ℕ) : Fin 2 → K :=
  fun s => if s = 0 then ca n i else cb n i

/-- Modelled from the spec: the representation matrix D(g) of a unitary
little-group operator on the degenerate block (the evaluator core of
`irrep_ssg`, declared in irrep_ssg.h, body absent from the tree).  Entry
(n,n') sums over the kept G-vectors the precomputed phase
Gphase[g,i] = e^{−i·2π·(k+g_i)·τ} (the G_phase_pw input) times the
conjugated spinor of state n at i dotted with S_SU2 applied to the spinor of
state n' at the permuted index π_g(i) (the rot_vec_pw input) (spec §4.3). -/
def repMatrix {K : Type} [CommRing K] [StarRing K] (ncnt m : ℕ)
    (Gphase : ℕ → K) (perm : ℕ → ℕ) (su2 : Fin 2 → Fin 2 → K)
    (ca cb : ℕ → ℕ → K) : Matrix (Fin m) (Fin m) K :=
  fun n n' => ∑ i ∈ Finset.range ncnt,
    Gphase i * Matrix.dotProduct (fun s => star (spinor ca cb n.val i s))
      (Matrix.mulVec (Matrix.of su2) (spinor ca cb n'.val (perm i)))

/-- The band character χ_band(g) = Tr D(g). -/
def chiBand {K : Type} [CommRing K] [StarRing K] (ncnt m : ℕ)
    (Gphase : ℕ → K) (perm : ℕ → ℕ) (su2 : Fin 2 → Fin 2 → K)
    (ca cb : ℕ → ℕ → K) : K :=
  Matrix.trace (repMatrix ncnt m Gphase perm su2 ca cb)

/-- C1: the band character of a unitary operator g = (R, τ, S_SU2) over an
m-fold degenerate block equals
Σ_{n<m} Σ_{i<ncnt} Gphase[g,i] · [c_a*[n,i]·(S_SU2·c'[n,π_g(i)])_up +
c_b*[n,i]·(S_SU2·c'[n,π_g(i)])_down], where Gphase[g,i] is the precomputed
phase e^{−i·2π·(k+g_i)·τ}, π_g the permutation table of g, and c' the
permuted spinor column. -/
theorem chiBand_formula {K : Type} [CommRing K] [StarRing K] (ncnt m : ℕ)
    (Gphase : ℕ → K) (perm : ℕ → ℕ) (su2 : Fin 2 → Fin 2 → K)
    (ca cb : ℕ → ℕ → K) :
    chiBand ncnt m Gphase perm su2 ca cb =
      ∑ n ∈ Finset.range m, ∑ i ∈ Finset.range ncnt,
        Gphase i *
          (star (ca n i) *
              (su2 0 0 * ca n (perm i) + su2 0 1 * cb n (perm i)) +
            star (cb n i) *
              (su2 1 0 * ca n (perm i) + su2 1 1 * cb n (perm i))) := by
  rw [chiBand, Matrix.trace, ← Fin.sum_univ_eq_sum_range]
  refine Finset.sum_congr rfl fun n _ => ?_
  rw [Matrix.diag]
  refine Finset.sum_congr rfl fun i _ => ?_
  simp only [repMatrix, Matrix.dotProduct, Matrix.mulVec, Matrix.of_apply,
    spinor, Fin.sum_univ_two, Fin.isValue]
  simp


/-- ε_char = 1e−4, the character-equality tolerance (spec §6). -/
def epsChar : ℚ := 1 / 10000

/-- Row inner product (1/|L_u|)·Σ_{g∈L_u} χ_α(g)*·χ_β(g) of two character
rows over the unitary little group. -/
def innerRow (Lu : List ℕ) (a b : ℕ → CQ) : CQ :=
  CQ.divNat (Lu.map (fun g => star (a g) * b g)).sum Lu.length

/-- Kronecker delta δ_αβ as a complex value. -/
def deltaCQ (x y : ℕ) : CQ := if x = y then 1 else 0

/-- The dimension of an irrep row: its character at the identity, which sits
at index 0 of the little group. -/
def dimOfRow (row : ℕ → CQ) : ℕ := roundNN (row 0).re

/-- Orthogonality residual check of a candidate character table (P1). -/
def orthoOK (eps : ℚ) (Lu : List ℕ) (T : List (ℕ → CQ)) : Bool :=
  (List.range T.length).all fun a =>
    (List.range T.length).all fun b =>
      decide (CQ.normSq (innerRow Lu (T.getD a (fun _ => 0))
        (T.getD b (fun _ => 0)) - deltaCQ a b) ≤ eps ^ 2)

/-- Completeness check Σ_α dim(α)² = |L_u| (P2). -/
def completenessOK (Lu : List ℕ) (T : List (ℕ → CQ)) : Bool :=
  decide ((T.map (fun row => dimOfRow row ^ 2)).sum = Lu.length)

/-- Modelled from the spec: phase A of the character-table builder
(`get_ch_from_op`, declared in comms.h, body absent from the tree).  The
spec admits any construction method — class-sum diagonalization,
Burnside–Dixon, or catalogue lookup — "provided the output satisfies the
orthogonality relations to within ε_char" (spec §4.2); the emission step is
therefore modelled as the validator of the candidate table: the table is
returned only when the orthogonality (P1) and completeness (P2) invariants
hold, otherwise NumericalUnsoundness is signalled. -/
def phaseA (eps : ℚ) (Lu : List ℕ) (cand : List (ℕ → CQ)) :
    Except IrrepError (List (ℕ → CQ)) :=
  if orthoOK eps Lu cand && completenessOK Lu cand then .ok cand
  else .error .numericalUnsoundness

/-- C8: every unitary character table the builder emits satisfies
row-orthogonality (1/|L_u|)·Σ_g χ_α(g)*·χ_β(g) = δ_αβ within ε_char
(embedded as normSq of the residual ≤ ε²) and the completeness relation
Σ_α dim(α)² = |L_u|. -/
theorem phaseA_invariants (eps : ℚ) (Lu : List ℕ) (cand T : List (ℕ → CQ))
    (h : phaseA eps Lu cand = .ok T) :
    (∀ a b, a < T.length → b < T.length →
      CQ.normSq (innerRow Lu (T.getD a (fun _ => 0)) (T.getD b (fun _ => 0)) -
        deltaCQ a b) ≤ eps ^ 2)
    ∧ (T.map (fun row => dimOfRow row ^ 2)).sum = Lu.length := by
  unfold phaseA at h
  by_cases hc : (orthoOK eps Lu cand && completenessOK Lu cand) = true
  · rw [if_pos hc] at h
    simp only [Except.ok.injEq] at h
    subst h
    rw [Bool.and_eq_true] at hc
    constructor
    · intro a b ha hb
      have := hc.1
      simp only [orthoOK, List.all_eq_true, decide_eq_true_eq] at this
      exact this a (List.mem_range.mpr ha) b (List.mem_range.mpr hb)
    · have := hc.2
      simpa [completenessOK] using this
  · rw [if_neg hc] at h
    cases h

/-- Witness for C8: the trivial one-row table over L_u = {0}. -/
theorem phaseA_invariants_witness :
    (([fun _ => (1 : CQ)] : List (ℕ → CQ)).map
      (fun row => dimOfRow row ^ 2)).sum = ([0] : List ℕ).length := by
  have h1 : innerRow [0] (fun _ => (1 : CQ)) (fun _ => 1) = 1 := by
    simp [innerRow, CQ.divNat, CQ.ext_iff]
  have h2 : orthoOK 1 [0] [fun _ => (1 : CQ)] = true := by
    norm_num [orthoOK, List.range_succ, h1, deltaCQ, CQ.normSq]
  have h3 : completenessOK [0] [fun _ => (1 : CQ)] = true := by
    norm_num [completenessOK, dimOfRow, roundNN]
  exact (phaseA_invariants 1 [0] [fun _ => (1 : CQ)] [fun _ => (1 : CQ)]
    (by simp [phaseA, h2, h3])).2

/-- The argument state of one `irrep_ssg` invocation: one field per
C-interface argument (irrep_ssg.h), plus the output slots the routine
fills (band characters, raw decomposition, label). -/
structure IrrepSsgState where
  num_litt_group_unitary : ℕ
  litt_group_unitary : List ℕ
  rot : ℕ → Fin 3 → Fin 3 → ℤ
  tau : ℕ → Fin 3 → ℚ
  SO3 : ℕ → Fin 3 → Fin 3 → ℚ
  SU2 : ℕ → Fin 2 → Fin 2 → CQ
  KKK : ℕ
  WK : Fin 3 → ℚ
  kphase : ℕ → CQ
  num_bands : ℕ
  m : ℕ
  n : ℕ
  ene_bands : ℕ → ℚ
  dim_basis : ℕ
  num_basis : ℕ
  coeffa : ℕ → ℕ → CQ
  coeffb : ℕ → ℕ → CQ
  irrep_num : ℕ
  ch_table : ℕ → ℕ → CQ
  irrep_name_list : ℕ → String
  G_phase_pw : ℕ → ℕ → CQ
  rot_vec_pw : ℕ → ℕ → ℕ
  band_character : ℕ → CQ
  decomposition : Except IrrepError (List ℕ)
  label : String

/-- Modelled from the spec: the `irrep_ssg` entry point (declared in
irrep_ssg.h, body absent from the tree) as a pure state transformer — it
computes the band character of each unitary little-group operator from the
precomputed phase (G_phase_pw) and permutation (rot_vec_pw) tables, then
decomposes against the character table and assembles the label, writing
only the output fields (spec §4.3–§4.4; §5: outputs are pure functions of
the inputs). -/
def irrep_ssg (s : IrrepSsgState) : IrrepSsgState :=
  let chi : ℕ → CQ := fun g =>
    chiBand s.dim_basis s.m (s.G_phase_pw g) (s.rot_vec_pw g) (s.SU2 g)
      s.coeffa s.coeffb
  let rows := (List.range s.irrep_num).map
    (fun a => (s.ch_table a, dimOfRow (s.ch_table a)))
  let dec := decompose s.litt_group_unitary rows chi s.m
  { s with
    band_character := chi
    decomposition := dec
    label :=
      match dec with
      | .ok mus =>
        formatDecomp ((List.range s.irrep_num).map s.irrep_name_list) mus
      | .error _ => "" }

/-- C10: `irrep_ssg` leaves every input argument unchanged — rotations,
translations, SO3 and SU2 spin rotations, k-vector, band energies,
plane-wave coefficients, character table, irrep names, and the precomputed
G_phase_pw and rot_vec_pw tables — writing only its designated outputs. -/
theorem irrep_ssg_frame (s : IrrepSsgState) :
    (irrep_ssg s).rot = s.rot ∧ (irrep_ssg s).tau = s.tau ∧
    (irrep_ssg s).SO3 = s.SO3 ∧ (irrep_ssg s).SU2 = s.SU2 ∧
    (irrep_ssg s).WK = s.WK ∧ (irrep_ssg s).kphase = s.kphase ∧
    (irrep_ssg s).ene_bands = s.ene_bands ∧
    (irrep_ssg s).coeffa = s.coeffa ∧ (irrep_ssg s).coeffb = s.coeffb ∧
    (irrep_ssg s).ch_table = s.ch_table ∧
    (irrep_ssg s).irrep_name_list = s.irrep_name_list ∧
    (irrep_ssg s).G_phase_pw = s.G_phase_pw ∧
    (irrep_ssg s).rot_vec_pw = s.rot_vec_pw ∧
    (irrep_ssg s).litt_group_unitary = s.litt_group_unitary ∧
    (irrep_ssg s).num_litt_group_unitary = s.num_litt_group_unitary ∧
    (irrep_ssg s).KKK = s.KKK ∧ (irrep_ssg s).num_bands = s.num_bands ∧
    (irrep_ssg s).m = s.m ∧ (irrep_ssg s).n = s.n ∧
    (irrep_ssg s).ene_bands = s.ene_bands ∧
    (irrep_ssg s).dim_basis = s.dim_basis ∧
    (irrep_ssg s).num_basis = s.num_basis ∧
    (irrep_ssg s).irrep_num = s.irrep_num :=
  ⟨rfl, rfl, rfl, rfl, rfl, rfl, rfl, rfl, rfl, rfl, rfl, rfl, rfl, rfl,
    rfl, rfl, rfl, rfl, rfl, rfl, rfl, rfl, rfl⟩

/-- Witness for C3 at the one-element group {E} and k = 0. -/
theorem kgroup_identity_witness :
    0 ∈ [0] ∧ List.head? [0] = some 0 := by
  have h1 : kAccept 1 idOp (fun _ => 0) = true := by
    simp [kAccept, kImage, idOp, deltaK]
  have h2 : littleGroupIndices 1 1 (fun _ => idOp) (fun _ => 0) = [0] := by
    simp [littleGroupIndices, List.range_succ, List.filter, h1]
  exact (kgroup_identity 1 1 (fun _ => idOp) (fun _ => 0)).2 [0]
    (by simp [kgroup, h2])

